import Mathlib

/-!
# A verification development for `cs161-proj1/main.c`

`main.c` is the command-line front end of a textbook RSA tool.  It holds the
integer codec (`encode`, `decode`) and the three subcommands `encrypt_mode`,
`decrypt_mode` and `genkey_mode`.  The codec and the subcommands are embedded
below as pure functions:

* a C string is the list of bytes found at its address; the C functions read it
  up to (not including) the first zero byte, and the end of the list stands for
  the terminator when no zero byte occurs (`cstring`, `strlen`);
* an `mpz_t` is an `Int`;
* a subcommand returns an `Outcome`: the bytes written to standard output, the
  `int` it returns, and the sequence of codec and `rsa.h` calls it made;
* the GMP and libc primitives used by `main.c` (`mpz_import`, `mpz_export`,
  `mpz_set_str`, `mpz_cmp`, `gmp_printf("%Zd")`, `printf("%s")`, `strtoul`) are
  modelled after their documented behaviour;
* `rsa.h` is not part of the sources: the key type and the two transforms are
  modelled from the specification, the remaining functions (key loading, key
  generation, key writing) are fields of `RsaLib`; key generation may fail to
  return, and then `genkey_mode` yields no outcome;
* storage management (`rsa_key_init`, `mpz_init`, `mpz_clear`, `rsa_key_clear`,
  `malloc` and the GMP free function) has no effect on the output or on the
  returned status and is left out; `malloc` is taken to succeed.
-/

namespace Rsa

/-! ## Bytes and C strings -/

/-- One `char` of storage, read as an unsigned value. -/
abbrev Byte := Fin 256

/-- The byte with value `d mod 256`. -/
def byte (d : Nat) : Byte := ⟨d % 256, Nat.mod_lt d (by decide)⟩

/-- The ASCII bytes of a string literal of the source. -/
def bytes (s : String) : List Byte := s.toList.map (fun ch => byte ch.toNat)

/-- The characters of the C string stored in `s`: everything before the first
zero byte. -/
def cstring (s : List Byte) : List Byte := s.takeWhile (fun b => b ≠ 0)

/-- `strlen(s)`: the number of bytes before the first zero byte. -/
def strlen (s : List Byte) : Nat := (cstring s).length

/-- `isspace(c)` in the C locale: space, `\t`, `\n`, `\v`, `\f`, `\r`. -/
def isspace (c : Byte) : Bool := c.val = 32 || (9 ≤ c.val && c.val ≤ 13)

/-- `isdigit(c)`. -/
def isdigit (c : Byte) : Bool := 48 ≤ c.val && c.val ≤ 57

/-! ## Positional digits -/

/-- The base-`b` digits of `x`, most significant first, without leading zero;
the empty list for `x = 0`.  The first argument bounds the number of digits
produced; `x` itself is always enough. -/
def digitsBE (b : Nat) : Nat → Nat → List Nat
  | 0, _ => []
  | fuel + 1, x => if x = 0 then [] else digitsBE b fuel (x / b) ++ [x % b]

/-- The value of a list of base-`b` digits, most significant first. -/
def ofDigitsBE (b : Nat) (ds : List Nat) : Nat :=
  ds.foldl (fun acc d => acc * b + d) 0

/-! ## GMP and libc primitives -/

/-- `mpz_import(x, count, 1, 1, 0, 0, data)`: the first `count` bytes of `data`,
most significant first, as a non-negative integer. -/
def mpz_import (count : Nat) (data : List Byte) : Int :=
  ((ofDigitsBE 256 ((data.take count).map Fin.val) : Nat) : Int)

/-- `mpz_export(NULL, &count, 1, 1, 0, 0, x)`: the bytes of `|x|`, most
significant first, with no leading zero byte, and their number.  For `x = 0`
nothing is written and the count is zero. -/
def mpz_export (x : Int) : List Byte × Nat :=
  let buf := (digitsBE 256 x.natAbs x.natAbs).map byte
  (buf, buf.length)

/-- `mpz_cmp(a, b)`: positive, zero or negative as `a` is greater than, equal to
or less than `b`. -/
def mpz_cmp (a b : Int) : Int :=
  if a < b then -1 else if a = b then 0 else 1

/-- The digit value table of `mpz_set_str`: `0`-`9`, then letters of either case
from 10 on, and 255 for every other byte. -/
def digit_value (c : Byte) : Nat :=
  if 48 ≤ c.val ∧ c.val ≤ 57 then c.val - 48
  else if 65 ≤ c.val ∧ c.val ≤ 90 then c.val - 55
  else if 97 ≤ c.val ∧ c.val ≤ 122 then c.val - 87
  else 255

/-- The digit loop of `mpz_set_str` in base 10: white space is dropped, every
other byte must be a decimal digit. -/
def set_str_digits : List Byte → Option (List Nat)
  | [] => some []
  | c :: rest =>
    if isspace c then set_str_digits rest
    else if 10 ≤ digit_value c then none
    else (set_str_digits rest).map (fun ds => digit_value c :: ds)

/-- `mpz_set_str(x, str, 10)`, as the pair of the new value of `x` and the
returned status.  Leading white space is skipped, one `-` may follow, the next
byte must be a digit, and the rest is digits and white space up to the
terminator.  On failure the status is `-1` and `x` keeps its value. -/
def mpz_set_str (x : Int) (str : List Byte) : Int × Int :=
  let s := (cstring str).dropWhile isspace
  let negative : Bool := s.head? == some 45
  let s := if negative then s.tail else s
  match s.head? with
  | none => (x, -1)
  | some c =>
    if 10 ≤ digit_value c then (x, -1)
    else
      let s := s.dropWhile (fun c => c == 48 || isspace c)
      if s.isEmpty then (0, 0)
      else
        match set_str_digits s with
        | none => (x, -1)
        | some ds =>
          let v : Int := ((ofDigitsBE 10 ds : Nat) : Int)
          (if negative then -v else v, 0)

/-- `gmp_printf("%Zd", c)`: the decimal digits of `c`, after a `-` when `c` is
negative. -/
def gmp_printf_Zd (c : Int) : List Byte :=
  (if c < 0 then [45] else []) ++
    (if c = 0 then [48]
     else (digitsBE 10 c.natAbs c.natAbs).map (fun d => byte (48 + d)))

/-- `printf("%s", s)`: the bytes of `s` before its first zero byte. -/
def printf_s (s : List Byte) : List Byte := cstring s

/-- `ULONG_MAX` for a 64-bit `unsigned long`. -/
def ULONG_MAX : Nat := 2 ^ 64 - 1

/-- `UINT_MAX` for a 32-bit `unsigned int`. -/
def UINT_MAX : Nat := 2 ^ 32 - 1

/-- `strtoul(nptr, &ptr, 10)`: white space, an optional sign, then the longest
run of decimal digits; zero when there is no digit, `ULONG_MAX` when the value
does not fit, and the negation modulo `ULONG_MAX + 1` after a `-`. -/
def strtoul (nptr : List Byte) : Nat :=
  let s := (cstring nptr).dropWhile isspace
  let negative : Bool := s.head? == some 45
  let s := if negative || s.head? == some 43 then s.tail else s
  let v := ofDigitsBE 10 ((s.takeWhile isdigit).map (fun c => c.val - 48))
  if ULONG_MAX < v then ULONG_MAX
  else if negative then (ULONG_MAX + 1 - v) % (ULONG_MAX + 1) else v

/-! ## The `rsa.h` interface -/

/-- Modelled from the spec: `struct rsa_key` is declared in `rsa.h`, which is not
among the sources.  The specification gives a key the modulus `n` and the
public and private exponents `e` and `d`, all unsigned integers; a public key
file fills `n` and `e`, a private key file `n` and `d`. -/
structure rsa_key where
  n : Nat
  e : Nat
  d : Nat
deriving DecidableEq

/-- Modelled from the spec: `rsa_encrypt` is defined in `rsa.c`, which is not
among the sources.  The specification gives `ciphertext = message^e mod n`. -/
def rsa_encrypt (m : Int) (key : rsa_key) : Int := m ^ key.e % (key.n : Int)

/-- Modelled from the spec: `rsa_decrypt` is defined in `rsa.c`, which is not
among the sources.  The specification gives `message = ciphertext^d mod n`. -/
def rsa_decrypt (c : Int) (key : rsa_key) : Int := c ^ key.d % (key.n : Int)

/-- The functions of `rsa.h` whose behaviour depends on the file system or on
the random source, as they answer during one run of the program: each loader
maps a file name to its status and the key it stored, and `rsa_key_write` maps
a key to the bytes it writes.  `rsa_genkey` maps the requested number of bits
to the key it left in `*key`, or to `none` when the call does not come back to
its caller (the specification makes an unworkable size a fatal error, and the
prime search need not end); `rsa.c` is not among the sources, so which sizes
it returns on is not fixed here. -/
structure RsaLib where
  rsa_key_load_public : List Byte → Int × rsa_key
  rsa_key_load_private : List Byte → Int × rsa_key
  rsa_genkey : Nat → Option rsa_key
  rsa_key_write : rsa_key → List Byte

/-- The codec and `rsa.h` functions a subcommand can call. -/
inductive Call where
  | rsa_key_load_public
  | rsa_key_load_private
  | encode
  | decode
  | mpz_set_str
  | rsa_encrypt
  | rsa_decrypt
  | rsa_genkey
  | rsa_key_write
deriving DecidableEq

/-- What a subcommand did: the bytes it wrote to standard output, the value it
returned, and the codec and `rsa.h` calls it made, in order. -/
structure Outcome where
  stdout : List Byte
  status : Int
  calls : List Call
deriving DecidableEq

/-! ## `main.c` -/

/-- `encode(x, s)`: the bytes of the C string `s`, `strlen(s)` of them, read as
a big-endian integer. -/
def encode (s : List Byte) : Int := mpz_import (strlen s) s

/-- `decode(x, &len)`: the NUL-terminated buffer holding the exported bytes of
`x`, and the length stored in `*len`. -/
def decode (x : Int) : List Byte × Nat :=
  let (buf, count) := mpz_export x
  (buf.take count ++ [0], count)

/-- The `encrypt` subcommand. -/
def encrypt_mode (lib : RsaLib) (key_filename message : List Byte) : Outcome :=
  let (ret, enc_key) := lib.rsa_key_load_public key_filename
  if ret ≠ 0 then
    { stdout := bytes "Error: could not load key from " ++ printf_s key_filename ++ bytes "\n"
      status := 1
      calls := [Call.rsa_key_load_public] }
  else
    let m := encode message
    if mpz_cmp m (enc_key.n : Int) > 0 then
      { stdout := bytes "Error: m is too big\n"
        status := 1
        calls := [Call.rsa_key_load_public, Call.encode] }
    else
      let c := rsa_encrypt m enc_key
      { stdout := gmp_printf_Zd c
        status := 0
        calls := [Call.rsa_key_load_public, Call.encode, Call.rsa_encrypt] }

/-- The `decrypt` subcommand. -/
def decrypt_mode (lib : RsaLib) (key_filename c_str : List Byte) : Outcome :=
  let (ret, dec_key) := lib.rsa_key_load_private key_filename
  if ret ≠ 0 then
    { stdout := bytes "Error: could not load key from " ++ printf_s key_filename ++ bytes "\n"
      status := 1
      calls := [Call.rsa_key_load_private] }
  else
    let c := (mpz_set_str 0 c_str).1
    let m := rsa_decrypt c dec_key
    let output := (decode m).1
    { stdout := printf_s output
      status := 1
      calls := [Call.rsa_key_load_private, Call.mpz_set_str, Call.rsa_decrypt, Call.decode] }

/-- The `genkey` subcommand; `none` when `rsa_genkey` does not return. -/
def genkey_mode (lib : RsaLib) (numbits_str : List Byte) : Option Outcome :=
  let numbits_int := strtoul numbits_str % (UINT_MAX + 1)
  match lib.rsa_genkey numbits_int with
  | none => none
  | some genkey =>
    some { stdout := lib.rsa_key_write genkey
           status := 0
           calls := [Call.rsa_genkey, Call.rsa_key_write] }

/-! ## A sample run-time environment -/

/-- The textbook key of the specification: `n = 3233 = 61 * 53`, `e = 17`,
`d = 2753`. -/
def textbook_key : rsa_key := { n := 3233, e := 17, d := 2753 }

/-- A key with a 1024-bit modulus, the product of the 512-bit numbers
`sample_p` and `sample_q`, with `e = 65537`. -/
def sample_p : Nat :=
  12593084287322743321927971400879186671916246892788625518400293387406187279356590500264929530662754548967780735458943719813612447795112498748495972064852911

/-- The second factor of the sample 1024-bit modulus. -/
def sample_q : Nat :=
  11052133986296242654827111105362191656825412394495553040617902993765237727780937312706248433768911885158374297725920508499136896453296319179550299557246569

/-- The sample 1024-bit key. -/
def sample_key_1024 : rsa_key where
  n := 139180454844212889140772739664748369724555039444110968410833101661246732629433698426566037596529348193557367273323385492819076203914583910737481250995175479645287339538213324621839849979808758332765288363076520121487756130100894257830289156777451915131452235032094638904707534876542313890770904529519144412359
  e := 65537
  d := 16667802918119609692560764869596984600808249188658390459929865547527274380000768758119894808678465436274699742812130415496445055257695833245695127919124075963448770371958677384259960210737006983014105764190162011065235765493808078851549267477571105085298299090919889864301099758385553457361611546588464209113

/-- An environment with one key file, named `k`, that holds the textbook key;
every other file name fails to load.  Key generation returns for a request of
1024 bits, with the sample 1024-bit key, and for no other size; a key is
written as its three numbers in decimal, one per line. -/
def textbook_lib : RsaLib where
  rsa_key_load_public := fun f =>
    if cstring f = [107] then (0, textbook_key) else (-1, { n := 0, e := 0, d := 0 })
  rsa_key_load_private := fun f =>
    if cstring f = [107] then (0, textbook_key) else (-1, { n := 0, e := 0, d := 0 })
  rsa_genkey := fun numbits => if numbits = 1024 then some sample_key_1024 else none
  rsa_key_write := fun k =>
    gmp_printf_Zd k.n ++ [10] ++ gmp_printf_Zd k.e ++ [10] ++ gmp_printf_Zd k.d ++ [10]

/-! ## Digits -/

theorem digitsBE_eq_digits (b : Nat) (hb : 1 < b) :
    ∀ (fuel x : Nat), x ≤ fuel → digitsBE b fuel x = (Nat.digits b x).reverse
  | 0, x, h => by
    have hx : x = 0 := by omega
    subst hx
    simp [digitsBE]
  | fuel + 1, x, h => by
    unfold digitsBE
    split_ifs with hx
    · subst hx; simp
    · have hpos : 0 < x := Nat.pos_of_ne_zero hx
      have hdiv : x / b ≤ fuel := by
        have : x / b < x := Nat.div_lt_self hpos hb
        omega
      rw [digitsBE_eq_digits b hb fuel (x / b) hdiv, Nat.digits_def' hb hpos,
        List.reverse_cons]

theorem foldl_digits (b : Nat) (ds : List Nat) :
    ∀ a : Nat, ds.foldl (fun acc d => acc * b + d) a
      = a * b ^ ds.length + Nat.ofDigits b ds.reverse := by
  induction ds with
  | nil => intro a; simp
  | cons d ds ih =>
    intro a
    rw [List.foldl_cons, ih, List.reverse_cons, Nat.ofDigits_append, Nat.ofDigits_singleton,
      List.length_reverse, List.length_cons]
    ring

theorem ofDigitsBE_eq (b : Nat) (ds : List Nat) :
    ofDigitsBE b ds = Nat.ofDigits b ds.reverse := by
  unfold ofDigitsBE
  rw [foldl_digits]
  simp

theorem ofDigitsBE_digitsBE (b : Nat) (hb : 1 < b) (x : Nat) :
    ofDigitsBE b (digitsBE b x x) = x := by
  rw [digitsBE_eq_digits b hb x x le_rfl, ofDigitsBE_eq, List.reverse_reverse,
    Nat.ofDigits_digits]

theorem digitsBE_lt (b : Nat) (hb : 1 < b) (x d : Nat) (hd : d ∈ digitsBE b x x) : d < b := by
  rw [digitsBE_eq_digits b hb x x le_rfl, List.mem_reverse] at hd
  exact Nat.digits_lt_base hb hd

theorem digitsBE_head_ne_zero (b : Nat) (hb : 1 < b) (x : Nat) :
    (digitsBE b x x).head? ≠ some 0 := by
  rw [digitsBE_eq_digits b hb x x le_rfl, List.head?_reverse]
  intro h
  rcases Nat.eq_zero_or_pos x with hx | hx
  · subst hx; simp at h
  · have hne : Nat.digits b x ≠ [] := Nat.digits_ne_nil_iff_ne_zero.mpr (by omega)
    rw [List.getLast?_eq_getLast _ hne] at h
    exact Nat.getLast_digit_ne_zero b (by omega) (Option.some.inj h)

theorem digitsBE_ofDigitsBE (b : Nat) (hb : 1 < b) (ds : List Nat)
    (hlt : ∀ d ∈ ds, d < b) (hhead : ds.head? ≠ some 0) :
    digitsBE b (ofDigitsBE b ds) (ofDigitsBE b ds) = ds := by
  rw [digitsBE_eq_digits b hb _ _ le_rfl, ofDigitsBE_eq, Nat.digits_ofDigits b hb]
  · simp
  · intro d hd
    exact hlt d (List.mem_reverse.mp hd)
  · intro hne h0
    apply hhead
    rw [List.getLast_reverse] at h0
    rw [List.head?_eq_head, h0]

theorem digitsBE_length_le_iff (x k : Nat) :
    (digitsBE 256 x x).length ≤ k ↔ x < 256 ^ k := by
  rw [digitsBE_eq_digits 256 (by decide) x x le_rfl, List.length_reverse]
  rcases Nat.eq_zero_or_pos x with hx | hx
  · subst hx; simp
  · have hne : x ≠ 0 := by omega
    rw [Nat.digits_len 256 x (by decide) hne, Nat.lt_pow_iff_log_lt (by decide) hne]
    omega

/-! ## Bytes and the codec -/

theorem byte_val (b : Byte) : byte b.val = b := by
  apply Fin.ext
  show b.val % 256 = b.val
  exact Nat.mod_eq_of_lt b.isLt

theorem val_byte (d : Nat) (h : d < 256) : (byte d).val = d :=
  Nat.mod_eq_of_lt h

theorem map_byte_val (s : List Byte) : (s.map Fin.val).map byte = s := by
  rw [List.map_map]
  conv_rhs => rw [← List.map_id s]
  exact List.map_congr_left (fun b _ => byte_val b)

theorem cstring_eq_self (s : List Byte) (hs : ∀ b ∈ s, b ≠ 0) : cstring s = s := by
  unfold cstring
  rw [List.takeWhile_eq_self_iff]
  intro b hb
  simpa using hs b hb

theorem encode_eq (s : List Byte) (hs : ∀ b ∈ s, b ≠ 0) :
    encode s = ((ofDigitsBE 256 (s.map Fin.val) : Nat) : Int) := by
  unfold encode mpz_import strlen
  rw [cstring_eq_self s hs, List.take_length]

theorem decode_natCast (N : Nat) :
    decode (N : Int) = ((digitsBE 256 N N).map byte ++ [0], (digitsBE 256 N N).length) := by
  simp [decode, mpz_export]

theorem exported_ne_zero_head (N : Nat) : ((digitsBE 256 N N).map byte).head? ≠ some 0 := by
  intro h
  cases hds : digitsBE 256 N N with
  | nil => rw [hds] at h; simp at h
  | cons d ds =>
    have hd : d < 256 := digitsBE_lt 256 (by decide) N d (by rw [hds]; simp)
    have h0 := digitsBE_head_ne_zero 256 (by decide) N
    rw [hds] at h h0
    simp only [List.map_cons, List.head?_cons, Option.some.injEq] at h h0
    have hv : (byte d).val = 0 := by rw [h]; rfl
    rw [val_byte d hd] at hv
    exact h0 (congrArg some hv)

theorem map_val_map_byte (N : Nat) :
    ((digitsBE 256 N N).map byte).map Fin.val = digitsBE 256 N N := by
  rw [List.map_map]
  conv_rhs => rw [← List.map_id (digitsBE 256 N N)]
  exact List.map_congr_left (fun d hd => val_byte d (digitsBE_lt 256 (by decide) N d hd))

theorem decode_encode (s : List Byte) (hs : ∀ b ∈ s, b ≠ 0) :
    decode (encode s) = (s ++ [0], s.length) := by
  have hlt : ∀ d ∈ s.map Fin.val, d < 256 := by
    intro d hd
    obtain ⟨b, _, rfl⟩ := List.mem_map.mp hd
    exact b.isLt
  have hhead : (s.map Fin.val).head? ≠ some 0 := by
    cases s with
    | nil => simp
    | cons b t =>
      simp only [List.map_cons, List.head?_cons, ne_eq, Option.some.injEq]
      intro hb
      exact hs b (by simp) (Fin.ext hb)
  rw [encode_eq s hs, decode_natCast, digitsBE_ofDigitsBE 256 (by decide) _ hlt hhead,
    map_byte_val, List.length_map]

/-- C2. Codec round trip: for every byte string `s` without a zero byte (so in
particular not starting with one), `decode(encode(s))` returns the
NUL-terminated string `s`, and the length stored in `*len` is the length of
`s`. -/
theorem codec_round_trip (s : List Byte) (hs : ∀ b ∈ s, b ≠ 0) :
    decode (encode s) = (s ++ [0], s.length) ∧ cstring (decode (encode s)).1 = s := by
  have h := decode_encode s hs
  refine ⟨h, ?_⟩
  rw [h]
  unfold cstring
  rw [List.takeWhile_append_of_pos]
  · simp
  · intro b hb
    simpa using hs b hb

set_option maxRecDepth 4000 in
/-- The message `hello world` survives the codec round trip. -/
theorem codec_round_trip_witness :
    (∀ b ∈ ([104, 101, 108, 108, 111, 32, 119, 111, 114, 108, 100] : List Byte), b ≠ 0) ∧
    (decode (encode [104, 101, 108, 108, 111, 32, 119, 111, 114, 108, 100])
        = ([104, 101, 108, 108, 111, 32, 119, 111, 114, 108, 100] ++ [0],
            ([104, 101, 108, 108, 111, 32, 119, 111, 114, 108, 100] : List Byte).length) ∧
      cstring (decode (encode [104, 101, 108, 108, 111, 32, 119, 111, 114, 108, 100])).1
        = [104, 101, 108, 108, 111, 32, 119, 111, 114, 108, 100]) :=
  ⟨by decide, codec_round_trip _ (by decide)⟩

/-- C6, counterexample. `decode(256)` returns the bytes `01 00` and the
terminator; `encode` reads that string up to its first zero byte and gives 1,
not 256. -/
theorem encode_decode_256 :
    decode 256 = ([1, 0, 0], 2) ∧ encode (decode 256).1 = 1 ∧ encode (decode 256).1 ≠ 256 := by
  decide

/-- C6, amended. For every integer `x ≥ 0`, `decode(x)` returns `*len` bytes
followed by the NUL terminator; the first of these bytes is not zero; `*len` is
the least `k` with `x < 256^k` (so zero decodes to the empty string); read as a
big-endian unsigned integer over all `*len` bytes they give back `x`; and
`encode`, which stops at the first zero byte, gives back `x` when none of the
bytes is zero. -/
theorem decode_minimal (x : Int) (hx : 0 ≤ x) :
    (decode x).1.length = (decode x).2 + 1 ∧
    (decode x).1.drop (decode x).2 = [0] ∧
    ((decode x).1.take (decode x).2).head? ≠ some 0 ∧
    (x < 256 ^ (decode x).2 ∧ ∀ k : Nat, x < 256 ^ k → (decode x).2 ≤ k) ∧
    mpz_import (decode x).2 (decode x).1 = x ∧
    ((∀ b ∈ (decode x).1.take (decode x).2, b ≠ 0) → encode (decode x).1 = x) := by
  obtain ⟨N, rfl⟩ := Int.eq_ofNat_of_zero_le hx
  have hlen : ((digitsBE 256 N N).map byte).length = (digitsBE 256 N N).length :=
    List.length_map _ _
  have htake : (List.map byte (digitsBE 256 N N) ++ [0]).take (digitsBE 256 N N).length
      = (digitsBE 256 N N).map byte := by
    rw [← hlen, List.take_left]
  have himp : mpz_import (digitsBE 256 N N).length (List.map byte (digitsBE 256 N N) ++ [0])
      = (N : Int) := by
    unfold mpz_import
    rw [htake, map_val_map_byte, ofDigitsBE_digitsBE 256 (by decide)]
  rw [decode_natCast]
  refine ⟨by simp, ?_, ?_, ⟨?_, ?_⟩, himp, ?_⟩
  · rw [← hlen, List.drop_left]
  · rw [htake]
    exact exported_ne_zero_head N
  · have := (digitsBE_length_le_iff N (digitsBE 256 N N).length).mp le_rfl
    exact_mod_cast this
  · intro k hk
    exact (digitsBE_length_le_iff N k).mpr (by exact_mod_cast hk)
  · intro hnz
    simp only at hnz ⊢
    rw [htake] at hnz
    unfold encode strlen cstring
    rw [List.takeWhile_append_of_pos (by intro b hb; simpa using hnz b hb)]
    simp only [ne_eq, not_true_eq_false, decide_False, List.takeWhile_cons_of_neg,
      List.append_nil, Bool.false_eq_true, not_false_eq_true, List.length_map]
    exact himp

/-- The integer 3233 decodes to the two bytes `0c a1`, neither of them zero. -/
theorem decode_minimal_witness :
    (0 : Int) ≤ 3233 ∧
    ((decode 3233).1.length = (decode 3233).2 + 1 ∧
    (decode 3233).1.drop (decode 3233).2 = [0] ∧
    ((decode 3233).1.take (decode 3233).2).head? ≠ some 0 ∧
    ((3233 : Int) < 256 ^ (decode 3233).2 ∧ ∀ k : Nat, (3233 : Int) < 256 ^ k → (decode 3233).2 ≤ k) ∧
    mpz_import (decode 3233).2 (decode 3233).1 = 3233 ∧
    ((∀ b ∈ (decode 3233).1.take (decode 3233).2, b ≠ 0) → encode (decode 3233).1 = 3233)) :=
  ⟨by decide, decode_minimal 3233 (by decide)⟩

/-! ## Decimal output and input -/

theorem decimal_digit_byte (d : Nat) (h : d < 10) :
    isspace (byte (48 + d)) = false ∧ digit_value (byte (48 + d)) = d ∧
    byte (48 + d) ≠ 0 ∧ byte (48 + d) ≠ 45 ∧ (byte (48 + d) = 48 → d = 0) := by
  interval_cases d <;> decide

theorem set_str_digits_map (ds : List Nat) (h : ∀ d ∈ ds, d < 10) :
    set_str_digits (ds.map (fun d => byte (48 + d))) = some ds := by
  induction ds with
  | nil => rfl
  | cons d ds ih =>
    obtain ⟨h1, h2, -⟩ := decimal_digit_byte d (h d (by simp))
    have ih2 := ih (fun x hx => h x (by simp [hx]))
    have hd : d < 10 := h d (by simp)
    simp only [List.map_cons, set_str_digits, h1, h2, ih2]
    simp [hd]

theorem gmp_printf_Zd_natCast (N : Nat) :
    gmp_printf_Zd (N : Int)
      = if N = 0 then [48] else (Nat.digits 10 N).reverse.map (fun d => byte (48 + d)) := by
  unfold gmp_printf_Zd
  rw [digitsBE_eq_digits 10 (by decide) _ _ le_rfl]
  simp

theorem gmp_printf_Zd_no_zero (N : Nat) : ∀ b ∈ gmp_printf_Zd (N : Int), b ≠ 0 := by
  intro b hb
  rw [gmp_printf_Zd_natCast] at hb
  split_ifs at hb with h0
  · simp only [List.mem_singleton] at hb
    subst hb; decide
  · obtain ⟨d, hd, rfl⟩ := List.mem_map.mp hb
    exact (decimal_digit_byte d (Nat.digits_lt_base (by decide) (List.mem_reverse.mp hd))).2.2.1

theorem mpz_set_str_zero (x : Int) : mpz_set_str x [48] = (0, 0) := by
  have h1 : (cstring [48]).dropWhile isspace = [48] := by decide
  have h2 : ([48] : List Byte).dropWhile (fun c => c == 48 || isspace c) = [] := by decide
  have h3 : digit_value 48 < 10 := by decide
  have h4 : ((48 : Byte) == 45) = false := by decide
  unfold mpz_set_str
  simp only [h1, List.head?_cons, h2]
  simp [h3, h4]

theorem mpz_set_str_gmp_printf (x : Int) (N : Nat) :
    mpz_set_str x (gmp_printf_Zd (N : Int)) = ((N : Int), 0) := by
  rcases Nat.eq_zero_or_pos N with hN | hN
  · subst hN
    exact mpz_set_str_zero x
  · have hno := gmp_printf_Zd_no_zero N
    have hval := ofDigitsBE_digitsBE 10 (by decide) N
    have hlt := digitsBE_lt 10 (by decide) N
    have hhead := digitsBE_head_ne_zero 10 (by decide) N
    have hstr : gmp_printf_Zd (N : Int) = (digitsBE 10 N N).map (fun d => byte (48 + d)) := by
      unfold gmp_printf_Zd
      have : ¬ ((N : Int) = 0) := by exact_mod_cast (by omega : N ≠ 0)
      simp [this]
    rw [hstr] at hno ⊢
    cases hds : digitsBE 10 N N with
    | nil =>
      rw [hds] at hval
      simp [ofDigitsBE] at hval
      omega
    | cons d ds =>
      rw [hds] at hval hlt hhead hno
      have hd : d < 10 := hlt d (by simp)
      obtain ⟨h1, h2, -, h4, h5⟩ := decimal_digit_byte d hd
      have hd0 : d ≠ 0 := by
        intro h; apply hhead; simp [h]
      have h48 : byte (48 + d) ≠ 48 := fun h => hd0 (h5 h)
      have hdig := set_str_digits_map (d :: ds) hlt
      rw [List.map_cons] at hdig
      unfold mpz_set_str
      rw [cstring_eq_self _ hno]
      simp only [List.map_cons, List.dropWhile_cons, h1, List.head?_cons, Bool.false_eq_true,
        ↓reduceIte]
      simp [h4, h2, hd, h48, h1, hdig, hval]

/-! ## RSA arithmetic -/

theorem pow_one_add_mul_pred_prime (p : Nat) (hp : p.Prime) (m k : Nat) :
    m ^ (1 + k * (p - 1)) ≡ m [MOD p] := by
  haveI := Fact.mk hp
  rw [← ZMod.eq_iff_modEq_nat]
  push_cast
  by_cases h : (m : ZMod p) = 0
  · simp [h]
  · rw [pow_add, pow_one, mul_comm k, pow_mul, ZMod.pow_card_sub_one_eq_one h, one_pow, mul_one]

theorem lcm_pred_ge_two (p q : Nat) (hp : p.Prime) (hq : q.Prime) (hpq : p ≠ q) :
    2 ≤ Nat.lcm (p - 1) (q - 1) := by
  have h2p := hp.two_le
  have h2q := hq.two_le
  have hpos : 0 < Nat.lcm (p - 1) (q - 1) := Nat.lcm_pos (by omega) (by omega)
  have h1 : p - 1 ≤ Nat.lcm (p - 1) (q - 1) := Nat.le_of_dvd hpos (Nat.dvd_lcm_left _ _)
  have h3 : q - 1 ≤ Nat.lcm (p - 1) (q - 1) := Nat.le_of_dvd hpos (Nat.dvd_lcm_right _ _)
  omega

theorem totient_modEq (p q e d : Nat)
    (hed : e * d ≡ 1 [MOD Nat.lcm (p - 1) (q - 1)] ∨ e * d ≡ 1 [MOD (p - 1) * (q - 1)]) :
    e * d ≡ 1 [MOD Nat.lcm (p - 1) (q - 1)] := by
  rcases hed with h | h
  · exact h
  · exact h.of_dvd (Nat.lcm_dvd_mul _ _)

theorem rsa_correct (p q e d m : Nat) (hp : p.Prime) (hq : q.Prime) (hpq : p ≠ q)
    (hed : e * d ≡ 1 [MOD Nat.lcm (p - 1) (q - 1)]) :
    m ^ (e * d) ≡ m [MOD p * q] := by
  have h2 := lcm_pred_ge_two p q hp hq hpq
  have hone : 1 ≤ e * d := by
    have h := hed
    unfold Nat.ModEq at h
    rw [Nat.mod_eq_of_lt (by omega : 1 < Nat.lcm (p - 1) (q - 1))] at h
    rcases Nat.eq_zero_or_pos (e * d) with h0 | h0
    · rw [h0] at h; simp at h
    · exact h0
  have hdvd : Nat.lcm (p - 1) (q - 1) ∣ e * d - 1 := (Nat.modEq_iff_dvd' hone).mp hed.symm
  have key : ∀ r : Nat, r.Prime → (r - 1) ∣ Nat.lcm (p - 1) (q - 1) →
      m ^ (e * d) ≡ m [MOD r] := by
    intro r hr hdiv
    obtain ⟨k, hk⟩ := hdiv.trans hdvd
    have : e * d = 1 + k * (r - 1) := by
      rw [mul_comm k]; omega
    rw [this]
    exact pow_one_add_mul_pred_prime r hr m k
  exact (Nat.modEq_and_modEq_iff_modEq_mul ((Nat.coprime_primes hp hq).mpr hpq)).mp
    ⟨key p hp (Nat.dvd_lcm_left _ _), key q hq (Nat.dvd_lcm_right _ _)⟩

theorem rsa_encrypt_natCast (m : Nat) (key : rsa_key) :
    rsa_encrypt (m : Int) key = ((m ^ key.e % key.n : Nat) : Int) := by
  unfold rsa_encrypt
  push_cast
  rfl

theorem rsa_decrypt_natCast (c : Nat) (key : rsa_key) :
    rsa_decrypt (c : Int) key = ((c ^ key.d % key.n : Nat) : Int) := by
  unfold rsa_decrypt
  push_cast
  rfl

theorem rsa_decrypt_encrypt (p q m : Nat) (kpub kpriv : rsa_key)
    (hp : p.Prime) (hq : q.Prime) (hpq : p ≠ q)
    (hed : kpub.e * kpriv.d ≡ 1 [MOD Nat.lcm (p - 1) (q - 1)])
    (hn : kpub.n = p * q) (hn2 : kpriv.n = p * q) (hm : m < p * q) :
    rsa_decrypt (rsa_encrypt (m : Int) kpub) kpriv = (m : Int) := by
  rw [rsa_encrypt_natCast, rsa_decrypt_natCast, hn, hn2, ← Nat.pow_mod, ← pow_mul]
  have h := rsa_correct p q kpub.e kpriv.d m hp hq hpq hed
  unfold Nat.ModEq at h
  rw [h, Nat.mod_eq_of_lt hm]

/-! ## The subcommands -/

theorem encode_natCast (s : List Byte) : ∃ M : Nat, encode s = (M : Int) :=
  ⟨_, rfl⟩

theorem encrypt_mode_loaded (lib : RsaLib) (key_filename message : List Byte) (key : rsa_key)
    (hload : lib.rsa_key_load_public key_filename = (0, key))
    (hm : encode message ≤ (key.n : Int)) :
    encrypt_mode lib key_filename message
      = { stdout := gmp_printf_Zd (rsa_encrypt (encode message) key)
          status := 0
          calls := [Call.rsa_key_load_public, Call.encode, Call.rsa_encrypt] } := by
  have hcmp : ¬ (mpz_cmp (encode message) (key.n : Int) > 0) := by
    unfold mpz_cmp
    split_ifs <;> omega
  simp only [encrypt_mode, hload, ne_eq, not_true_eq_false, ↓reduceIte, hcmp]

theorem decrypt_mode_loaded (lib : RsaLib) (key_filename c_str : List Byte) (key : rsa_key)
    (hload : lib.rsa_key_load_private key_filename = (0, key)) :
    decrypt_mode lib key_filename c_str
      = { stdout := printf_s (decode (rsa_decrypt (mpz_set_str 0 c_str).1 key)).1
          status := 1
          calls := [Call.rsa_key_load_private, Call.mpz_set_str, Call.rsa_decrypt,
            Call.decode] } := by
  simp only [decrypt_mode, hload, ne_eq, not_true_eq_false, ↓reduceIte]

theorem encrypt_mode_too_big (lib : RsaLib) (key_filename message : List Byte) (key : rsa_key)
    (hload : lib.rsa_key_load_public key_filename = (0, key))
    (hm : (key.n : Int) < encode message) :
    encrypt_mode lib key_filename message
      = { stdout := bytes "Error: m is too big\n"
          status := 1
          calls := [Call.rsa_key_load_public, Call.encode] } := by
  have hcmp : mpz_cmp (encode message) (key.n : Int) > 0 := by
    unfold mpz_cmp
    split_ifs <;> omega
  simp only [encrypt_mode, hload, ne_eq, not_true_eq_false, ↓reduceIte, hcmp]

theorem mpz_set_str_failure (x : Int) (str : List Byte) (h : (mpz_set_str x str).2 ≠ 0) :
    (mpz_set_str x str).1 = x := by
  unfold mpz_set_str at h ⊢
  simp only at h ⊢
  split
  · rfl
  · rename_i c hc
    rw [hc] at h
    simp only at h
    by_cases h1 : 10 ≤ digit_value c
    · rw [if_pos h1]
    · rw [if_neg h1] at h ⊢
      split_ifs at h ⊢
      all_goals first
        | exact absurd rfl h
        | (split at h <;> simp_all)

theorem textbook_load_public : textbook_lib.rsa_key_load_public [107] = (0, textbook_key) := by
  decide

theorem textbook_load_private : textbook_lib.rsa_key_load_private [107] = (0, textbook_key) := by
  decide

theorem textbook_decrypt_2790 : rsa_decrypt 2790 textbook_key = 65 := by
  norm_num [rsa_decrypt, textbook_key]

theorem textbook_decrypt_1791 : rsa_decrypt 1791 textbook_key = 256 := by
  norm_num [rsa_decrypt, textbook_key]

theorem textbook_decrypt_zero : rsa_decrypt 0 textbook_key = 0 := by
  norm_num [rsa_decrypt, textbook_key]

theorem textbook_encrypt_65 : rsa_encrypt 65 textbook_key = 2790 := by
  norm_num [rsa_encrypt, textbook_key]

theorem textbook_encrypt_3233 : rsa_encrypt 3233 textbook_key = 0 := by
  norm_num [rsa_encrypt, textbook_key]

theorem decrypt_mode_congr (lib : RsaLib) (key_filename s t : List Byte)
    (h : (mpz_set_str 0 s).1 = (mpz_set_str 0 t).1) :
    decrypt_mode lib key_filename s = decrypt_mode lib key_filename t := by
  simp only [decrypt_mode, h]

theorem printf_s_terminated (s : List Byte) (hs : ∀ b ∈ s, b ≠ 0) : printf_s (s ++ [0]) = s := by
  unfold printf_s cstring
  rw [List.takeWhile_append_of_pos]
  · simp
  · intro b hb
    simpa using hs b hb

/-! ## The claims -/

/-- C1. End-to-end round trip: for distinct primes `p`, `q`, a public key
`(p*q, e)` and a private key `(p*q, d)` with `e*d ≡ 1` modulo `lcm(p-1, q-1)`
or modulo `(p-1)(q-1)`, and a message `s` without zero bytes whose encoding is
below `p*q`, `decrypt_mode` run on the decimal ciphertext printed by
`encrypt_mode` prints exactly `s`. -/
theorem crypto_round_trip (lib : RsaLib) (p q : Nat) (pub priv s : List Byte)
    (kpub kpriv : rsa_key) (hp : p.Prime) (hq : q.Prime) (hpq : p ≠ q)
    (hed : kpub.e * kpriv.d ≡ 1 [MOD Nat.lcm (p - 1) (q - 1)] ∨
      kpub.e * kpriv.d ≡ 1 [MOD (p - 1) * (q - 1)])
    (hpub : lib.rsa_key_load_public pub = (0, kpub)) (hn : kpub.n = p * q)
    (hpriv : lib.rsa_key_load_private priv = (0, kpriv)) (hn2 : kpriv.n = p * q)
    (hs : ∀ b ∈ s, b ≠ 0) (hlt : encode s < ((p * q : Nat) : Int)) :
    (decrypt_mode lib priv (encrypt_mode lib pub s).stdout).stdout = s := by
  have hdec := decode_encode s hs
  obtain ⟨M, hM⟩ := encode_natCast s
  rw [hM] at hlt hdec
  have hMlt : M < p * q := by exact_mod_cast hlt
  have henc := encrypt_mode_loaded lib pub s kpub hpub (by rw [hM, hn]; exact le_of_lt hlt)
  rw [henc, decrypt_mode_loaded lib priv _ kpriv hpriv]
  simp only
  have hround := rsa_decrypt_encrypt p q M kpub kpriv hp hq hpq
    (totient_modEq p q kpub.e kpriv.d hed) hn hn2 hMlt
  rw [hM, rsa_encrypt_natCast, mpz_set_str_gmp_printf, ← rsa_encrypt_natCast, hround, hdec]
  exact printf_s_terminated s hs

set_option maxRecDepth 4000 in
/-- The textbook key `61 * 53`, `e = 17`, `d = 2753` and the message `A`. -/
theorem crypto_round_trip_witness :
    (Nat.Prime 61 ∧ Nat.Prime 53 ∧ 61 ≠ 53) ∧
    (textbook_key.e * textbook_key.d ≡ 1 [MOD (61 - 1) * (53 - 1)]) ∧
    (textbook_lib.rsa_key_load_public [107] = (0, textbook_key) ∧
      textbook_lib.rsa_key_load_private [107] = (0, textbook_key) ∧
      textbook_key.n = 61 * 53) ∧
    ((∀ b ∈ ([65] : List Byte), b ≠ 0) ∧ encode [65] < ((61 * 53 : Nat) : Int)) ∧
    (decrypt_mode textbook_lib [107] (encrypt_mode textbook_lib [107] [65]).stdout).stdout
      = [65] :=
  ⟨⟨by norm_num, by norm_num, by decide⟩, by norm_num [Nat.ModEq, textbook_key],
    ⟨by decide, by decide, by decide⟩,
    ⟨by decide, by decide⟩,
    crypto_round_trip textbook_lib 61 53 [107] [107] [65] textbook_key textbook_key
      (by norm_num) (by norm_num) (by decide)
      (Or.inr (by norm_num [Nat.ModEq, textbook_key])) (by decide) (by decide)
      (by decide) (by decide) (by decide) (by decide)⟩

/-- C3. For a public key that loads and a message whose encoding `m` satisfies
`0 ≤ m < n`, `encrypt_mode` prints the base-10 digits of `m^e mod n` (most
significant first, `0` for zero) and nothing else, and returns 0. -/
theorem encrypt_mode_in_range (lib : RsaLib) (key_filename message : List Byte) (key : rsa_key)
    (hload : lib.rsa_key_load_public key_filename = (0, key))
    (hm : 0 ≤ encode message ∧ encode message < (key.n : Int)) :
    (encrypt_mode lib key_filename message).stdout
      = gmp_printf_Zd (encode message ^ key.e % (key.n : Int)) ∧
    (encrypt_mode lib key_filename message).stdout
      = (if (encode message).toNat ^ key.e % key.n = 0 then [48]
         else (Nat.digits 10 ((encode message).toNat ^ key.e % key.n)).reverse.map
           (fun d => byte (48 + d))) ∧
    (encrypt_mode lib key_filename message).status = 0 ∧
    (encrypt_mode lib key_filename message).calls
      = [Call.rsa_key_load_public, Call.encode, Call.rsa_encrypt] := by
  rw [encrypt_mode_loaded lib key_filename message key hload (le_of_lt hm.2)]
  obtain ⟨M, hM⟩ := encode_natCast message
  refine ⟨rfl, ?_, rfl, rfl⟩
  simp only
  rw [hM, rsa_encrypt_natCast, gmp_printf_Zd_natCast, Int.toNat_ofNat]

/-- The textbook scenario: under `n = 3233`, `e = 17` the one-byte message of
value 65 is printed as `2790`. -/
theorem encrypt_mode_in_range_witness :
    (textbook_lib.rsa_key_load_public [107] = (0, textbook_key) ∧
      (0 ≤ encode [65] ∧ encode [65] < (textbook_key.n : Int))) ∧
    ((encrypt_mode textbook_lib [107] [65]).stdout
        = gmp_printf_Zd (encode [65] ^ textbook_key.e % (textbook_key.n : Int)) ∧
      (encrypt_mode textbook_lib [107] [65]).stdout
        = (if (encode [65]).toNat ^ textbook_key.e % textbook_key.n = 0 then [48]
           else (Nat.digits 10 ((encode [65]).toNat ^ textbook_key.e % textbook_key.n)).reverse.map
             (fun d => byte (48 + d))) ∧
      (encrypt_mode textbook_lib [107] [65]).status = 0 ∧
      (encrypt_mode textbook_lib [107] [65]).calls
        = [Call.rsa_key_load_public, Call.encode, Call.rsa_encrypt]) ∧
    gmp_printf_Zd (encode [65] ^ textbook_key.e % (textbook_key.n : Int)) = [50, 55, 57, 48] :=
  ⟨⟨by decide, by decide, by decide⟩,
    encrypt_mode_in_range textbook_lib [107] [65] textbook_key (by decide)
      ⟨by decide, by decide⟩,
    by decide⟩

/-- C4, at the failing input. Under the textbook key `n = 3233` the two-byte
message `0c a1` encodes to 3233 itself; `encrypt_mode` does not reject it: it
calls `rsa_encrypt`, prints the ciphertext `0` and returns 0. -/
theorem encrypt_mode_message_equal_modulus :
    encode [12, 161] = (textbook_key.n : Int) ∧
    encrypt_mode textbook_lib [107] [12, 161]
      = { stdout := [48]
          status := 0
          calls := [Call.rsa_key_load_public, Call.encode, Call.rsa_encrypt] } := by
  decide

/-- C5, at the failing input. Under the textbook key the ciphertext `1791`
decrypts to 256, whose bytes are `01 00`; `decrypt_mode` prints only the byte
`01`, because `printf("%s")` stops at the zero byte and the length returned by
`decode` is not used. -/
theorem decrypt_mode_truncates_at_zero_byte :
    mpz_set_str 0 [49, 55, 57, 49] = (1791, 0) ∧
    decode (rsa_decrypt 1791 textbook_key) = ([1, 0, 0], 2) ∧
    (decrypt_mode textbook_lib [107] [49, 55, 57, 49]).stdout = [1] := by
  have hparse : mpz_set_str 0 [49, 55, 57, 49] = (1791, 0) := by decide
  refine ⟨hparse, ?_, ?_⟩
  · rw [textbook_decrypt_1791]; decide
  · rw [decrypt_mode_loaded textbook_lib [107] _ textbook_key textbook_load_private, hparse]
    simp only
    rw [textbook_decrypt_1791]
    decide

/-- C7. When `rsa_key_load_public` returns nonzero, `encrypt_mode` prints only
the key-load error line and returns 1, and the only call it has made is the
loader; likewise for `decrypt_mode` and `rsa_key_load_private`.  Neither the
codec nor `rsa_encrypt` / `rsa_decrypt` is called. -/
theorem key_load_failure (lib : RsaLib) (key_filename message c_str : List Byte) :
    ((lib.rsa_key_load_public key_filename).1 ≠ 0 →
      encrypt_mode lib key_filename message
        = { stdout := bytes "Error: could not load key from " ++ printf_s key_filename
              ++ bytes "\n"
            status := 1
            calls := [Call.rsa_key_load_public] } ∧
      (encrypt_mode lib key_filename message).status ≠ 0) ∧
    ((lib.rsa_key_load_private key_filename).1 ≠ 0 →
      decrypt_mode lib key_filename c_str
        = { stdout := bytes "Error: could not load key from " ++ printf_s key_filename
              ++ bytes "\n"
            status := 1
            calls := [Call.rsa_key_load_private] } ∧
      (decrypt_mode lib key_filename c_str).status ≠ 0) := by
  constructor
  · intro h
    have : encrypt_mode lib key_filename message
        = { stdout := bytes "Error: could not load key from " ++ printf_s key_filename
              ++ bytes "\n"
            status := 1
            calls := [Call.rsa_key_load_public] } := by
      simp only [encrypt_mode, h, ne_eq, not_false_eq_true, ↓reduceIte]
    rw [this]
    exact ⟨rfl, by simp⟩
  · intro h
    have : decrypt_mode lib key_filename c_str
        = { stdout := bytes "Error: could not load key from " ++ printf_s key_filename
              ++ bytes "\n"
            status := 1
            calls := [Call.rsa_key_load_private] } := by
      simp only [decrypt_mode, h, ne_eq, not_false_eq_true, ↓reduceIte]
    rw [this]
    exact ⟨rfl, by simp⟩

/-- In the sample environment the file `l` does not load, for either kind of
key. -/
theorem key_load_failure_witness :
    ((textbook_lib.rsa_key_load_public [108]).1 ≠ 0 ∧
      (encrypt_mode textbook_lib [108] [65]
        = { stdout := bytes "Error: could not load key from " ++ printf_s [108] ++ bytes "\n"
            status := 1
            calls := [Call.rsa_key_load_public] } ∧
      (encrypt_mode textbook_lib [108] [65]).status ≠ 0)) ∧
    ((textbook_lib.rsa_key_load_private [108]).1 ≠ 0 ∧
      (decrypt_mode textbook_lib [108] [50, 55, 57, 48]
        = { stdout := bytes "Error: could not load key from " ++ printf_s [108] ++ bytes "\n"
            status := 1
            calls := [Call.rsa_key_load_private] } ∧
      (decrypt_mode textbook_lib [108] [50, 55, 57, 48]).status ≠ 0)) :=
  ⟨⟨by decide, (key_load_failure textbook_lib [108] [65] [50, 55, 57, 48]).1 (by decide)⟩,
    ⟨by decide, (key_load_failure textbook_lib [108] [65] [50, 55, 57, 48]).2 (by decide)⟩⟩

/-- C8, at the failing input. Under the textbook private key the ciphertext
`2790` is decrypted and the plaintext byte 65 is printed, yet `decrypt_mode`
returns 1. -/
theorem decrypt_mode_success_returns_one :
    decrypt_mode textbook_lib [107] [50, 55, 57, 48]
      = { stdout := [65]
          status := 1
          calls := [Call.rsa_key_load_private, Call.mpz_set_str, Call.rsa_decrypt,
            Call.decode] } := by
  have hparse : mpz_set_str 0 [50, 55, 57, 48] = (2790, 0) := by decide
  rw [decrypt_mode_loaded textbook_lib [107] _ textbook_key textbook_load_private, hparse]
  simp only
  rw [textbook_decrypt_2790]
  decide

/-- C9, counterexample. `abc` is rejected by `mpz_set_str`, but `decrypt_mode`
gives on it exactly the outcome it gives on the valid ciphertext `0`: nothing
printed, status 1, the same calls. -/
theorem decrypt_mode_abc_like_zero :
    (mpz_set_str 0 [97, 98, 99]).2 = -1 ∧
    (mpz_set_str 0 [48]).2 = 0 ∧
    decrypt_mode textbook_lib [107] [97, 98, 99] = decrypt_mode textbook_lib [107] [48] ∧
    decrypt_mode textbook_lib [107] [97, 98, 99]
      = { stdout := []
          status := 1
          calls := [Call.rsa_key_load_private, Call.mpz_set_str, Call.rsa_decrypt,
            Call.decode] } := by
  have hparse : mpz_set_str 0 [97, 98, 99] = (0, -1) := by decide
  refine ⟨by decide, by decide, decrypt_mode_congr _ _ _ _ (by decide), ?_⟩
  rw [decrypt_mode_loaded textbook_lib [107] _ textbook_key textbook_load_private, hparse]
  simp only
  rw [textbook_decrypt_zero]
  decide

/-- C9, amended. `decrypt_mode` does not check the status of `mpz_set_str`: for
a private key that loads and a ciphertext string that `mpz_set_str` rejects,
the ciphertext keeps its initial value 0, so `decrypt_mode` has exactly the
outcome it has on the ciphertext `0`, and what it prints is the decoding of
`0^d mod n`. -/
theorem decrypt_mode_invalid_ciphertext (lib : RsaLib) (key_filename c_str : List Byte)
    (key : rsa_key) (hload : lib.rsa_key_load_private key_filename = (0, key))
    (hbad : (mpz_set_str 0 c_str).2 ≠ 0) :
    decrypt_mode lib key_filename c_str = decrypt_mode lib key_filename [48] ∧
    (decrypt_mode lib key_filename c_str).stdout = printf_s (decode (rsa_decrypt 0 key)).1 := by
  have h0 := mpz_set_str_failure 0 c_str hbad
  refine ⟨decrypt_mode_congr _ _ _ _ (by rw [h0, mpz_set_str_zero]), ?_⟩
  rw [decrypt_mode_loaded lib key_filename c_str key hload, h0]

/-- The string `12x` is rejected by `mpz_set_str` and handled as `0`. -/
theorem decrypt_mode_invalid_ciphertext_witness :
    (textbook_lib.rsa_key_load_private [107] = (0, textbook_key) ∧
      (mpz_set_str 0 [49, 50, 120]).2 ≠ 0) ∧
    (decrypt_mode textbook_lib [107] [49, 50, 120] = decrypt_mode textbook_lib [107] [48] ∧
    (decrypt_mode textbook_lib [107] [49, 50, 120]).stdout
      = printf_s (decode (rsa_decrypt 0 textbook_key)).1) :=
  ⟨⟨by decide, by decide⟩,
    decrypt_mode_invalid_ciphertext textbook_lib [107] [49, 50, 120] textbook_key (by decide)
      (by decide)⟩

theorem sample_key_1024_shape :
    sample_key_1024.n = sample_p * sample_q ∧
    2 ^ 1023 ≤ sample_key_1024.n ∧ sample_key_1024.n < 2 ^ 1024 ∧
    sample_key_1024.e * sample_key_1024.d % ((sample_p - 1) * (sample_q - 1) / 2) = 1 := by
  norm_num [sample_key_1024, sample_p, sample_q]

theorem genkey_mode_status (lib : RsaLib) (numbits_str : List Byte) (o : Outcome)
    (h : genkey_mode lib numbits_str = some o) : o.status = 0 := by
  unfold genkey_mode at h
  simp only at h
  split at h
  · exact absurd h (by simp)
  · rw [← Option.some.inj h]

/-- C10, at the failing input. `1024abc` is not a decimal integer literal, but
`strtoul` reads its leading digits as 1024 and the end pointer it stores is
never looked at: whenever `rsa_genkey` returns a key for 1024 bits,
`genkey_mode` writes that key to standard output and returns 0. -/
theorem genkey_mode_trailing_garbage (lib : RsaLib) (key : rsa_key)
    (hgen : lib.rsa_genkey 1024 = some key) :
    strtoul [49, 48, 50, 52, 97, 98, 99] = 1024 ∧
    genkey_mode lib [49, 48, 50, 52, 97, 98, 99]
      = some { stdout := lib.rsa_key_write key
               status := 0
               calls := [Call.rsa_genkey, Call.rsa_key_write] } := by
  have h : strtoul [49, 48, 50, 52, 97, 98, 99] = 1024 := by decide
  refine ⟨h, ?_⟩
  have h2 : (1024 : Nat) % (UINT_MAX + 1) = 1024 := by decide
  simp only [genkey_mode, h, h2, hgen]

/-- The sample environment answers a request for 1024 bits with the sample
1024-bit key. -/
theorem genkey_mode_trailing_garbage_witness :
    textbook_lib.rsa_genkey 1024 = some sample_key_1024 ∧
    (strtoul [49, 48, 50, 52, 97, 98, 99] = 1024 ∧
    genkey_mode textbook_lib [49, 48, 50, 52, 97, 98, 99]
      = some { stdout := textbook_lib.rsa_key_write sample_key_1024
               status := 0
               calls := [Call.rsa_genkey, Call.rsa_key_write] }) :=
  ⟨rfl, genkey_mode_trailing_garbage textbook_lib sample_key_1024 rfl⟩

end Rsa
